import Mathlib

/-!
Verification development for the `parallel` module of the cheffu repository
(gate algebra, gated-alternative flow trees, split-set normalization, and
walk resolution).

Modelling conventions:

* `Slot` is `u8` in Rust; it is modelled as `ℕ` (every `u8` value embeds into
  `ℕ`, and all slot operations are plain set-membership tests, so statements
  quantified over all of `ℕ` cover the whole `u8` range `0..=255`).
* `SlotSet` is Rust `BTreeSet<Slot>`; it is modelled as `Finset ℕ` (a
  `BTreeSet` is exactly a finite set of slots; its equality is element
  equality, which is `Finset` equality).
* `CowSplitSet` is Rust `BTreeSet<CowSplit>`: a collection whose equality is
  element equality.  Inside the flow tree and as function results it is
  modelled as a `List CowSplit` holding the elements; set-level claims are
  stated about the elements of that list.  (Rust `HashMap` iteration order is
  arbitrary and the final `collect::<BTreeSet<_>>` canonicalizes it away; the
  model lists the grouped entries in first-insertion order.)
* The mutable slot stack `&mut Vec<Slot>` is modelled by explicit state
  passing: each walk function takes the stack and returns the remaining
  stack.  Rust `Vec::pop` removes the *last* element; the model list is kept
  in pop order (model list head = next element popped), so a Rust vector
  `vec![a, b]` corresponds to the model list `[b, a]`.
* Fallible Rust functions returning `Result<T, Error>` are modelled with
  `Except SlotStackError T`.
-/

/-- Slot identifier, `pub type Slot = u8` in `src/parallel/gate.rs`. -/
abbrev Slot := ℕ

/-- Slot set, `pub type SlotSet = BTreeSet<Slot>` in `src/parallel/gate.rs`. -/
abbrev SlotSet := Finset ℕ

/-- The two kinds of gate, `GateType` in `src/parallel/gate.rs`. -/
inductive GateType where
  | allow : GateType
  | block : GateType
deriving DecidableEq

/-- `GateType::is_allow`: `self == &GateType::Allow`. -/
def GateType.is_allow (t : GateType) : Bool := t == GateType.allow

/-- `GateType::is_block`: `self == &GateType::Block`. -/
def GateType.is_block (t : GateType) : Bool := t == GateType.block

/-- `GateType::invert`: swaps `Allow` and `Block`. -/
def GateType.invert : GateType → GateType
  | .allow => .block
  | .block => .allow

/-- `Gate(GateType, SlotSet)` in `src/parallel/gate.rs`: a slot filter that is
either an allow-list or a block-list over its slot set. -/
structure Gate where
  gtype : GateType
  slots : SlotSet
deriving DecidableEq

/-- `Gate::new(gate_type, slots)` (the iterator collect into a `BTreeSet`
deduplicates; the model receives the slot set directly). -/
def Gate.new (t : GateType) (s : SlotSet) : Gate := ⟨t, s⟩

/-- `Gate::allow(slots)`. -/
def Gate.allow (s : SlotSet) : Gate := Gate.new GateType.allow s

/-- `Gate::block(slots)`. -/
def Gate.block (s : SlotSet) : Gate := Gate.new GateType.block s

/-- `Gate::allow_all()`: the canonical gate allowing every slot, `block([])`. -/
def Gate.allow_all : Gate := Gate.block ∅

/-- `Gate::block_all()`: the canonical gate blocking every slot, `allow([])`. -/
def Gate.block_all : Gate := Gate.allow ∅

/-- `Gate::is_allow`. -/
def Gate.is_allow (g : Gate) : Bool := g.gtype.is_allow

/-- `Gate::is_block`. -/
def Gate.is_block (g : Gate) : Bool := g.gtype.is_block

/-- `Gate::is_allow_all`: only the canonical `Block` of the empty set. -/
def Gate.is_allow_all (g : Gate) : Bool := g.is_block && decide (g.slots = ∅)

/-- `Gate::is_block_all`: only the canonical `Allow` of the empty set. -/
def Gate.is_block_all (g : Gate) : Bool := g.is_allow && decide (g.slots = ∅)

/-- `Gate::invert`: swaps the kind, keeps the slot set. -/
def Gate.invert (g : Gate) : Gate := ⟨g.gtype.invert, g.slots⟩

/-- `Gate::allows_slot`: `self.1.contains(&slot) == self.is_allow()`. -/
def Gate.allows_slot (g : Gate) (s : Slot) : Bool :=
  decide (s ∈ g.slots) == g.is_allow

/-- `Gate::blocks_slot`: `!self.allows_slot(slot)`. -/
def Gate.blocks_slot (g : Gate) (s : Slot) : Bool := !g.allows_slot s

/-- `Gate::union`: the four-way match on the two kinds from `gate.rs`. -/
def Gate.union (a b : Gate) : Gate :=
  match a.gtype, b.gtype with
  | .allow, .allow => Gate.allow (a.slots ∪ b.slots)
  | .allow, .block => Gate.block (b.slots \ a.slots)
  | .block, .allow => Gate.block (a.slots \ b.slots)
  | .block, .block => Gate.block (a.slots ∩ b.slots)

/-- `Gate::intersection`: the four-way match on the two kinds from `gate.rs`. -/
def Gate.intersection (a b : Gate) : Gate :=
  match a.gtype, b.gtype with
  | .allow, .allow => Gate.allow (a.slots ∩ b.slots)
  | .allow, .block => Gate.allow (a.slots \ b.slots)
  | .block, .allow => Gate.allow (b.slots \ a.slots)
  | .block, .block => Gate.block (a.slots ∪ b.slots)

/-- `Gate::difference`: `self.intersection(&gate.invert())`. -/
def Gate.difference (a b : Gate) : Gate := a.intersection b.invert

/-- `Gate::sym_difference`: the symmetric difference of the slot sets
(`BTreeSet::symmetric_difference`), with kind `Allow` iff both kinds agree. -/
def Gate.sym_difference (a b : Gate) : Gate :=
  match a.gtype, b.gtype with
  | .allow, .allow => Gate.allow ((a.slots \ b.slots) ∪ (b.slots \ a.slots))
  | .allow, .block => Gate.block ((a.slots \ b.slots) ∪ (b.slots \ a.slots))
  | .block, .allow => Gate.block ((a.slots \ b.slots) ∪ (b.slots \ a.slots))
  | .block, .block => Gate.allow ((a.slots \ b.slots) ∪ (b.slots \ a.slots))

/-- `Quantity` from `src/types.rs` (a unit struct in the source). -/
structure Quantity where
deriving DecidableEq

/-- `Portion` from `src/types.rs` (`Fraction(u8, u8)` modelled over `ℕ`). -/
inductive Portion where
  | pseudo : String → Portion
  | quantity : Quantity → Portion
  | fraction : ℕ → ℕ → Portion
deriving DecidableEq

/-- `Token` from `src/token.rs`: the opaque domain vocabulary. -/
inductive Token where
  | ingredient : String → Token
  | tool : String → Token
  | container : String → Token
  | appliance : String → Token
  | verb : String → Token
  | combine : String → Token
  | transfer : String → Token
  | measure : Quantity → Token
  | take : Portion → Token
  | leave : Portion → Token
  | place : Token
  | remove : Token
  | configure : String → Token
  | meld : String → Token
  | discard : Token
  | empty : Token
  | tagSet : String → Token
  | tagGet : String → Token
  | modifier : String → Token
  | annotation : String → Token
deriving DecidableEq

/-- `SlotStackError` from `src/parallel/cow_flow.rs` / `src/parallel/flow.rs`:
`Empty` (stack underflow at a split) and `Leftover` (unconsumed slots after a
full walk, carrying the leftover values). -/
inductive SlotStackError where
  | empty : SlotStackError
  | leftover : List Slot → SlotStackError
deriving DecidableEq

/-- `CowFlowItem` from `src/parallel/cow_flow.rs`: a flow entry is either a
`Token` or a `Split(CowSplitSet)`.  A `CowSplit` is a pair of a sub-flow
(`List CowFlowItem`) and a `Gate`; a `CowSplitSet` is the collection of such
pairs (see the header note on `BTreeSet` modelling). -/
inductive CowFlowItem where
  | token : Token → CowFlowItem
  | split : List (List CowFlowItem × Gate) → CowFlowItem

/-- A flow, `CowFlow(Vec<CowFlowItem>)`. -/
abbrev CowFlow := List CowFlowItem

/-- A split, `CowSplit { flow, gate }`: a gated alternative sub-flow. -/
abbrev CowSplit := CowFlow × Gate

/-- The sub-flow component of a split (`CowSplit::flow`). -/
def CowSplit.flow (sp : CowSplit) : CowFlow := sp.1

/-- The gate component of a split (`CowSplit::gate`). -/
def CowSplit.gate (sp : CowSplit) : Gate := sp.2

mutual

/-- Boolean structural equality on flow items (needed because `BTreeSet`
keys are compared structurally; Lean cannot derive `DecidableEq` for this
nested inductive, so the decision procedure is spelled out). -/
def beqItem : CowFlowItem → CowFlowItem → Bool
  | .token a, .token b => a == b
  | .split a, .split b => beqSplits a b
  | .token _, .split _ => false
  | .split _, .token _ => false

/-- Boolean structural equality on split lists. -/
def beqSplits : List (List CowFlowItem × Gate) → List (List CowFlowItem × Gate) → Bool
  | [], [] => true
  | (f1, g1) :: r1, (f2, g2) :: r2 => beqFlow f1 f2 && g1 == g2 && beqSplits r1 r2
  | [], _ :: _ => false
  | _ :: _, [] => false

/-- Boolean structural equality on flows. -/
def beqFlow : List CowFlowItem → List CowFlowItem → Bool
  | [], [] => true
  | a :: r1, b :: r2 => beqItem a b && beqFlow r1 r2
  | [], _ :: _ => false
  | _ :: _, [] => false

end

mutual

/-- Soundness and completeness of `beqItem` (mutually with the list forms). -/
def beqItem_iff : ∀ a b, beqItem a b = true ↔ a = b
  | .token a, .token b => by simp [beqItem, beq_iff_eq]
  | .split a, .split b => by simp [beqItem, beqSplits_iff a b]
  | .token _, .split _ => by simp [beqItem]
  | .split _, .token _ => by simp [beqItem]

/-- Soundness and completeness of `beqSplits`. -/
def beqSplits_iff : ∀ a b, beqSplits a b = true ↔ a = b
  | [], [] => by simp [beqSplits]
  | (f1, g1) :: r1, (f2, g2) :: r2 => by
      simp [beqSplits, beqFlow_iff f1 f2, beqSplits_iff r1 r2, beq_iff_eq, and_assoc]
  | [], _ :: _ => by simp [beqSplits]
  | _ :: _, [] => by simp [beqSplits]

/-- Soundness and completeness of `beqFlow`. -/
def beqFlow_iff : ∀ a b, beqFlow a b = true ↔ a = b
  | [], [] => by simp [beqFlow]
  | a :: r1, b :: r2 => by simp [beqFlow, beqItem_iff a b, beqFlow_iff r1 r2]
  | [], _ :: _ => by simp [beqFlow]
  | _ :: _, [] => by simp [beqFlow]

end

instance : DecidableEq CowFlowItem :=
  fun a b => decidable_of_iff (beqItem a b = true) (beqItem_iff a b)

/-- Cross product with concatenation, the inner double loop of
`CowFlow::find_walks` that appends each split-set walk to each result. -/
def crossApp (rs ws : List (List Token)) : List (List Token) :=
  rs.flatMap (fun r => ws.map (fun w => r ++ w))

mutual

/-- Body of `CowFlow::find_walks` from `src/parallel/cow_flow.rs`: iterate
the items carrying the accumulated results, the `Option<Slot>` target of this
level, and the mutable slot stack.  A token is appended to every result; the
first split pops the stack (erroring with `Empty` when it is exhausted) and
later splits at this level reuse the popped slot. -/
def cowFlowFindWalksAux : List CowFlowItem → List (List Token) → Option Slot → List Slot →
    Except SlotStackError (List (List Token) × List Slot)
  | [], results, _, stack => .ok (results, stack)
  | .token t :: rest, results, optSlot, stack =>
      cowFlowFindWalksAux rest (results.map (fun r => r ++ [t])) optSlot stack
  | .split _ :: _, _, none, [] => .error .empty
  | .split ss :: rest, results, none, s :: stack1 =>
      match cowSplitSetFindWalks ss s stack1 with
      | .error e => .error e
      | .ok (w, stack2) => cowFlowFindWalksAux rest (crossApp results w) (some s) stack2
  | .split ss :: rest, results, some s, stack =>
      match cowSplitSetFindWalks ss s stack with
      | .error e => .error e
      | .ok (w, stack2) => cowFlowFindWalksAux rest (crossApp results w) (some s) stack2

/-- `CowSplitSet::find_walks` from `src/parallel/cow_flow.rs`: each contained
split is resolved against `slot_stack.clone()` — in the model, each split
receives the same `stack` value and the remaining stack its sub-flow returns
is discarded — and the walk lists are concatenated. -/
def cowSplitSetFindWalks : List CowSplit → Slot → List Slot →
    Except SlotStackError (List (List Token) × List Slot)
  | [], _, stack => .ok ([], stack)
  | sp :: rest, tgt, stack =>
      match cowSplitFindWalks sp tgt stack with
      | .error e => .error e
      | .ok (w1, _) =>
          match cowSplitSetFindWalks rest tgt stack with
          | .error e => .error e
          | .ok (wr, stack2) => .ok (w1 ++ wr, stack2)

/-- `CowSplit::find_walks` from `src/parallel/cow_flow.rs`: a blocked gate
contributes a single empty walk (`Ok(vec![vec![]])`); an allowed gate
resolves the contained sub-flow. -/
def cowSplitFindWalks : CowSplit → Slot → List Slot →
    Except SlotStackError (List (List Token) × List Slot)
  | (fl, g), tgt, stack =>
      if g.allows_slot tgt then cowFlowFindWalksAux fl [[]] none stack
      else .ok ([[]], stack)

end

/-- `CowFlow::find_walks` entry: results start as one empty walk and no slot
has been popped for this level yet. -/
def CowFlow.find_walks (f : CowFlow) (stack : List Slot) :
    Except SlotStackError (List (List Token) × List Slot) :=
  cowFlowFindWalksAux f [[]] none stack

/-- `Flow::walks` from `src/parallel/flow.rs`: clone the caller stack, run
`find_walks`, then `ensure!` the stack is fully drained, reporting the
leftover slots otherwise. -/
def CowFlow.walks (f : CowFlow) (stack : List Slot) :
    Except SlotStackError (List (List Token)) :=
  match CowFlow.find_walks f stack with
  | .error e => .error e
  | .ok (w, rest) => if rest = [] then .ok w else .error (.leftover rest)

/-- Does a flow item introduce a split? -/
def isSplitItem : CowFlowItem → Bool
  | .token _ => false
  | .split _ => true

/-- Does a flow contain a split item at its own (top) level? -/
def hasSplitItem (f : CowFlow) : Bool := f.any isSplitItem

/-- Number of split items at the top level of a flow. -/
def countSplitItems (f : CowFlow) : ℕ := f.countP isSplitItem

/-- Spec-style reformulation of one level of walk resolution: the target slot
for the whole level is given up front (one pop) and every split item of the
level is evaluated against that same slot, over the same remaining stack. -/
def levelWalks : List CowFlowItem → Slot → List Slot → List (List Token) →
    Except SlotStackError (List (List Token))
  | [], _, _, results => .ok results
  | .token t :: rest, tgt, stk, results =>
      levelWalks rest tgt stk (results.map (fun r => r ++ [t]))
  | .split ss :: rest, tgt, stk, results =>
      match cowSplitSetFindWalks ss tgt stk with
      | .error e => .error e
      | .ok (w, _) => levelWalks rest tgt stk (crossApp results w)

/-- One step of the grouping `HashMap` of `CowSplitSet::normalize_splits`:
`flow_to_gate.entry(flow).and_modify(|present| *present = gate.union(present)).or_insert(gate)`,
on an association list keyed by sub-flow. -/
def insertFlowGate : List (CowFlow × Gate) → CowFlow → Gate → List (CowFlow × Gate)
  | [], f, g => [(f, g)]
  | (f0, g0) :: rest, f, g =>
      if f = f0 then (f0, Gate.union g g0) :: rest
      else (f0, g0) :: insertFlowGate rest f g

/-- The grouping loop of `CowSplitSet::normalize_splits`: fold the splits into
the flow-keyed map. -/
def groupByFlow : List CowSplit → List (CowFlow × Gate) → List (CowFlow × Gate)
  | [], acc => acc
  | sp :: rest, acc => groupByFlow rest (insertFlowGate acc sp.1 sp.2)

/-- `CowSplitSet::normalize_splits` from `src/parallel/cow_flow.rs`:
compute the union gate of all splits; if it is not allow-all, append the
escape-hatch split `(empty flow, union.invert())`; drop splits with a
block-all gate; group splits with identical sub-flows, unioning their gates. -/
def CowSplitSet.normalize_splits (splits : List CowSplit) : List CowSplit :=
  let union_gate := splits.foldl (fun red sp => red.union sp.2) Gate.block_all
  let withEscape :=
    if union_gate.is_allow_all then splits
    else splits ++ [(([] : CowFlow), union_gate.invert)]
  let retained := withEscape.filter (fun sp => !sp.2.is_block_all)
  groupByFlow retained []

/-- `CowSplitSet::new` from `src/parallel/cow_flow.rs`: collects the splits
into the stored `BTreeSet` without normalizing (`dedup` models the set
semantics of the collect; no normalization happens here). -/
def CowSplitSet.new (splits : List CowSplit) : List CowSplit := splits.dedup

/-- One step of the grouping `HashMap` of `SplitSet::normalize_splits` in
`src/parallel/split.rs`: `entry(subflow).or_insert(Gate::block_all())` then
`*entry = entry.union(&active_gate)`. -/
def insertFlowGateOld : List (CowFlow × Gate) → CowFlow → Gate → List (CowFlow × Gate)
  | [], f, g => [(f, Gate.union Gate.block_all g)]
  | (f0, g0) :: rest, f, g =>
      if f = f0 then (f0, Gate.union g0 g) :: rest
      else (f0, g0) :: insertFlowGateOld rest f g

/-- The grouping loop of `SplitSet::normalize_splits` (`src/parallel/split.rs`). -/
def groupByFlowOld : List CowSplit → List (CowFlow × Gate) → List (CowFlow × Gate)
  | [], acc => acc
  | sp :: rest, acc => groupByFlowOld rest (insertFlowGateOld acc sp.1 sp.2)

/-- `SplitSet::normalize_splits` from `src/parallel/split.rs`: the same
pipeline as the cow variant (union gate, escape hatch, retain, group), with
the `split.rs` form of the grouping entry update. -/
def SplitSet.normalize_splits (splits : List CowSplit) : List CowSplit :=
  let union_gate := splits.foldl (fun red sp => red.union sp.2) Gate.block_all
  let withEscape :=
    if union_gate.is_allow_all then splits
    else splits ++ [(([] : CowFlow), union_gate.invert)]
  let retained := withEscape.filter (fun sp => !sp.2.is_block_all)
  groupByFlowOld retained []

/-- `SplitSet::new` from `src/parallel/split.rs`:
`SplitSet(SplitSet::normalize_splits(splits))` — the constructor stores the
normalized collection. -/
def SplitSet.new (splits : List CowSplit) : List CowSplit :=
  SplitSet.normalize_splits splits

/-- Concrete token used by the claim scenarios. -/
def tokA : Token := Token.ingredient "apple"

/-- Concrete token used by the claim scenarios. -/
def tokB : Token := Token.ingredient "banana"

/-- Concrete token used by the claim scenarios. -/
def tokC : Token := Token.ingredient "cherry"

/-- Concrete token used by the claim scenarios. -/
def tokD : Token := Token.ingredient "date"

/-- The flow of the C4 scenario:
`[Token(A), Split{ (Flow[Token(B)], allow(0)) }, Token(C)]`. -/
def flowC4 : CowFlow :=
  [CowFlowItem.token tokA,
   CowFlowItem.split [([CowFlowItem.token tokB], Gate.allow {0})],
   CowFlowItem.token tokC]

/-- The flow of the C5 scenario: `[Token(A), Split{alt1}, Token(C), Split{alt2}]`
with `alt1 = (Flow[Token(B)], allow(0))` and `alt2 = (Flow[Token(D), Token(A)], allow(1))`. -/
def flowC5 : CowFlow :=
  [CowFlowItem.token tokA,
   CowFlowItem.split [([CowFlowItem.token tokB], Gate.allow {0})],
   CowFlowItem.token tokC,
   CowFlowItem.split [([CowFlowItem.token tokD, CowFlowItem.token tokA], Gate.allow {1})]]

/-- A flow with two independent nesting levels of splits: a split whose single
alternative contains another split (both gates allow everything). -/
def flowNested2 : CowFlow :=
  [CowFlowItem.split
    [([CowFlowItem.split [(([] : CowFlow), Gate.allow_all)]], Gate.allow_all)]]

/-- A split set whose single alternative contains a nested split, so that
resolving the alternative consumes a slot from its cloned stack. -/
def ssNested : List CowSplit :=
  [([CowFlowItem.split [(([] : CowFlow), Gate.allow_all)]], Gate.allow {0})]

/-- Inverting a gate flips the permission of every slot. -/
theorem allows_slot_invert (g : Gate) (s : Slot) :
    (g.invert).allows_slot s = !g.allows_slot s := by
  rcases g with ⟨t, sl⟩
  cases t <;> cases h : decide (s ∈ sl) <;>
    simp [Gate.invert, GateType.invert, Gate.allows_slot, Gate.is_allow, GateType.is_allow, h]

/-- Pointwise semantics of `Gate::union`. -/
theorem allows_slot_union (a b : Gate) (s : Slot) :
    (a.union b).allows_slot s = (a.allows_slot s || b.allows_slot s) := by
  rcases a with ⟨ta, sa⟩; rcases b with ⟨tb, sb⟩
  cases ta <;> cases tb <;>
    by_cases h1 : s ∈ sa <;> by_cases h2 : s ∈ sb <;>
      simp [Gate.union, Gate.allow, Gate.block, Gate.new, Gate.allows_slot, Gate.is_allow,
        GateType.is_allow, Finset.mem_union, Finset.mem_inter, Finset.mem_sdiff, h1, h2]

/-- Pointwise semantics of `Gate::intersection`. -/
theorem allows_slot_intersection (a b : Gate) (s : Slot) :
    (a.intersection b).allows_slot s = (a.allows_slot s && b.allows_slot s) := by
  rcases a with ⟨ta, sa⟩; rcases b with ⟨tb, sb⟩
  cases ta <;> cases tb <;>
    by_cases h1 : s ∈ sa <;> by_cases h2 : s ∈ sb <;>
      simp [Gate.intersection, Gate.allow, Gate.block, Gate.new, Gate.allows_slot, Gate.is_allow,
        GateType.is_allow, Finset.mem_union, Finset.mem_inter, Finset.mem_sdiff, h1, h2]

/-- Pointwise semantics of `Gate::difference`. -/
theorem allows_slot_difference (a b : Gate) (s : Slot) :
    (a.difference b).allows_slot s = (a.allows_slot s && !b.allows_slot s) := by
  rw [Gate.difference, allows_slot_intersection, allows_slot_invert]

/-- Pointwise semantics of `Gate::sym_difference`. -/
theorem allows_slot_sym_difference (a b : Gate) (s : Slot) :
    (a.sym_difference b).allows_slot s = (a.allows_slot s != b.allows_slot s) := by
  rcases a with ⟨ta, sa⟩; rcases b with ⟨tb, sb⟩
  cases ta <;> cases tb <;>
    by_cases h1 : s ∈ sa <;> by_cases h2 : s ∈ sb <;>
      simp [Gate.sym_difference, Gate.allow, Gate.block, Gate.new, Gate.allows_slot, Gate.is_allow,
        GateType.is_allow, Finset.mem_union, Finset.mem_sdiff, h1, h2]

/-- Two gates with the same kind and the same pointwise semantics are
structurally equal (for a `Block` gate the slot set is the set of disallowed
slots, for an `Allow` gate the set of allowed slots — both determined). -/
theorem gate_ext (a b : Gate) (ht : a.gtype = b.gtype)
    (h : ∀ s, a.allows_slot s = b.allows_slot s) : a = b := by
  rcases a with ⟨ta, sa⟩; rcases b with ⟨tb, sb⟩
  cases ht
  congr 1
  ext x
  have hx := h x
  cases ta <;>
    simp only [Gate.allows_slot, Gate.is_allow, GateType.is_allow, GateType.is_block] at hx <;>
    [skip; skip] <;>
    · by_cases h1 : x ∈ sa <;> by_cases h2 : x ∈ sb <;> simp [h1, h2] at hx ⊢

/-- `Gate::union` is commutative. -/
theorem gate_union_comm (a b : Gate) : a.union b = b.union a := by
  rcases a with ⟨ta, sa⟩; rcases b with ⟨tb, sb⟩
  cases ta <;> cases tb <;>
    simp [Gate.union, Gate.allow, Gate.block, Gate.new, Finset.union_comm, Finset.inter_comm]

/-- `Gate::block_all` is a left identity for `Gate::union`. -/
theorem gate_block_all_union (g : Gate) : Gate.block_all.union g = g := by
  rcases g with ⟨t, s⟩
  cases t <;> simp [Gate.block_all, Gate.union, Gate.allow, Gate.block, Gate.new]

/-- A structurally block-all union can only come from block-all operands. -/
theorem gate_union_block_all (a b : Gate)
    (h : (a.union b).is_block_all = true) :
    a.is_block_all = true ∧ b.is_block_all = true := by
  rcases a with ⟨ta, sa⟩; rcases b with ⟨tb, sb⟩
  cases ta <;> cases tb <;>
    simp [Gate.union, Gate.is_block_all, Gate.is_allow, GateType.is_allow,
      Gate.allow, Gate.block, Gate.new, Finset.union_eq_empty] at h ⊢
  exact h

/-- A block-all gate allows no slot. -/
theorem is_block_all_allows (g : Gate) (h : g.is_block_all = true) (s : Slot) :
    g.allows_slot s = false := by
  rcases g with ⟨t, sl⟩
  cases t
  · simp [Gate.is_block_all, Gate.is_allow, GateType.is_allow] at h
    simp [Gate.allows_slot, Gate.is_allow, GateType.is_allow, h]
  · simp [Gate.is_block_all, Gate.is_allow, GateType.is_allow, GateType.is_block] at h

/-- The canonical allow-all gate allows every slot. -/
theorem block_empty_allows (s : Slot) : (Gate.block ∅).allows_slot s = true := by
  simp [Gate.block, Gate.new, Gate.allows_slot, Gate.is_allow, GateType.is_allow]

/-- The canonical block-all gate allows no slot. -/
theorem block_all_allows (s : Slot) : Gate.block_all.allows_slot s = false := by
  simp [Gate.block_all, Gate.allow, Gate.new, Gate.allows_slot, Gate.is_allow, GateType.is_allow]

/-- A gate that allows every slot is the canonical `block ∅` (the model slot
type is infinite, so a finite `Allow` list can never cover every slot). -/
theorem allows_all_eq_block_empty (g : Gate) (h : ∀ s, g.allows_slot s = true) :
    g = Gate.block ∅ := by
  rcases g with ⟨t, sl⟩
  cases t
  · obtain ⟨x, hx⟩ := Infinite.exists_not_mem_finset sl
    have hc := h x
    simp [Gate.allows_slot, Gate.is_allow, GateType.is_allow, hx] at hc
  · have hsl : sl = ∅ := by
      ext x
      simp only [Finset.not_mem_empty, iff_false]
      intro hx
      have hc := h x
      simp [Gate.allows_slot, Gate.is_allow, GateType.is_allow, hx] at hc
    simp [Gate.block, Gate.new, hsl]

/-- `is_allow_all` recognizes exactly the canonical `block ∅`. -/
theorem is_allow_all_iff (g : Gate) : g.is_allow_all = true ↔ g = Gate.block ∅ := by
  rcases g with ⟨t, sl⟩
  cases t <;>
    simp [Gate.is_allow_all, Gate.is_block, GateType.is_block, Gate.block, Gate.new]

/-- Folding `Gate::union` over a list of splits (as `normalize_splits` does)
allows a slot iff the seed allows it or some split's gate allows it. -/
theorem foldl_union_allows (l : List CowSplit) (g : Gate) (s : Slot) :
    (l.foldl (fun red sp => red.union sp.2) g).allows_slot s =
      (g.allows_slot s || l.any (fun sp => sp.2.allows_slot s)) := by
  induction l generalizing g with
  | nil => simp
  | cons sp rest ih =>
      simp [List.foldl_cons, List.any_cons, ih (g.union sp.2), allows_slot_union, Bool.or_assoc]

/-- A union with a non-block-all left operand is not block-all. -/
theorem gate_union_not_block_all_left (g g0 : Gate) (hg : g.is_block_all = false) :
    (Gate.union g g0).is_block_all = false := by
  cases hbu : (Gate.union g g0).is_block_all
  · rfl
  · exact absurd (gate_union_block_all g g0 hbu).1 (by simp [hg])

/-- Keys of the grouping map after one insertion: unchanged for a present
key, extended by the new key otherwise. -/
theorem insertFlowGate_keys (acc : List (CowFlow × Gate)) (f : CowFlow) (g : Gate) :
    (insertFlowGate acc f g).map Prod.fst =
      if f ∈ acc.map Prod.fst then acc.map Prod.fst else acc.map Prod.fst ++ [f] := by
  induction acc with
  | nil => simp [insertFlowGate]
  | cons p rest ih =>
      rcases p with ⟨f0, g0⟩
      by_cases hf : f = f0
      · subst hf
        simp [insertFlowGate]
      · by_cases hm : f ∈ rest.map Prod.fst <;>
          simp [insertFlowGate, hf, ih, hm]

/-- Inserting a fresh key appends the pair at the end. -/
theorem insertFlowGate_not_mem (acc : List (CowFlow × Gate)) (f : CowFlow) (g : Gate)
    (h : f ∉ acc.map Prod.fst) : insertFlowGate acc f g = acc ++ [(f, g)] := by
  induction acc with
  | nil => simp [insertFlowGate]
  | cons p rest ih =>
      rcases p with ⟨f0, g0⟩
      simp only [List.map_cons, List.mem_cons, not_or] at h
      simp [insertFlowGate, h.1, ih h.2]

/-- Grouping keeps its keys without duplicates. -/
theorem groupByFlow_keys_nodup (l : List CowSplit) (acc : List (CowFlow × Gate))
    (h : (acc.map Prod.fst).Nodup) : ((groupByFlow l acc).map Prod.fst).Nodup := by
  induction l generalizing acc with
  | nil => simpa [groupByFlow] using h
  | cons sp rest ih =>
      rw [groupByFlow]
      apply ih
      rw [insertFlowGate_keys]
      by_cases hm : sp.1 ∈ acc.map Prod.fst
      · simpa [hm] using h
      · rw [if_neg hm]
        simp [List.nodup_append, h]
        simpa using hm

/-- Whether some grouped gate allows a slot is preserved by one insertion. -/
theorem insertFlowGate_allows (acc : List (CowFlow × Gate)) (f : CowFlow) (g : Gate) (s : Slot) :
    (insertFlowGate acc f g).any (fun p => p.2.allows_slot s) =
      (acc.any (fun p => p.2.allows_slot s) || g.allows_slot s) := by
  induction acc with
  | nil => simp [insertFlowGate, Bool.or_comm]
  | cons p rest ih =>
      rcases p with ⟨f0, g0⟩
      by_cases hf : f = f0
      · subst hf
        rw [insertFlowGate, if_pos rfl]
        simp only [List.any_cons, allows_slot_union]
        cases g.allows_slot s <;> cases g0.allows_slot s <;> simp
      · rw [insertFlowGate, if_neg hf]
        simp only [List.any_cons, ih, Bool.or_assoc]

/-- Whether some gate allows a slot is preserved by the whole grouping. -/
theorem groupByFlow_allows (l : List CowSplit) (acc : List (CowFlow × Gate)) (s : Slot) :
    (groupByFlow l acc).any (fun p => p.2.allows_slot s) =
      (acc.any (fun p => p.2.allows_slot s) || l.any (fun sp => sp.2.allows_slot s)) := by
  induction l generalizing acc with
  | nil => simp [groupByFlow]
  | cons sp rest ih =>
      rw [groupByFlow, ih, insertFlowGate_allows]
      simp only [List.any_cons, Bool.or_assoc, Bool.or_comm (sp.2.allows_slot s)]

/-- Block-all-freeness of the gates is preserved by one insertion. -/
theorem insertFlowGate_not_block_all (acc : List (CowFlow × Gate)) (f : CowFlow) (g : Gate)
    (hacc : ∀ p ∈ acc, p.2.is_block_all = false) (hg : g.is_block_all = false) :
    ∀ p ∈ insertFlowGate acc f g, p.2.is_block_all = false := by
  induction acc with
  | nil =>
      intro p hp
      simp [insertFlowGate] at hp
      simp [hp, hg]
  | cons q rest ih =>
      rcases q with ⟨f0, g0⟩
      intro p hp
      rw [insertFlowGate] at hp
      by_cases hf : f = f0
      · subst hf
        rw [if_pos rfl] at hp
        rcases List.mem_cons.mp hp with h1 | h2
        · rw [h1]
          exact gate_union_not_block_all_left g g0 hg
        · exact hacc p (List.mem_cons_of_mem _ h2)
      · rw [if_neg hf] at hp
        rcases List.mem_cons.mp hp with h1 | h2
        · rw [h1]
          exact hacc (f0, g0) (List.mem_cons_self _ _)
        · exact ih (fun q hq => hacc q (List.mem_cons_of_mem _ hq)) p h2

/-- Block-all-freeness of the gates is preserved by the whole grouping. -/
theorem groupByFlow_not_block_all (l : List CowSplit) (acc : List (CowFlow × Gate))
    (hacc : ∀ p ∈ acc, p.2.is_block_all = false)
    (hl : ∀ sp ∈ l, sp.2.is_block_all = false) :
    ∀ p ∈ groupByFlow l acc, p.2.is_block_all = false := by
  induction l generalizing acc with
  | nil => simpa [groupByFlow] using hacc
  | cons sp rest ih =>
      rw [groupByFlow]
      exact ih _
        (insertFlowGate_not_block_all _ sp.1 sp.2 hacc (hl sp (by simp)))
        (fun q hq => hl q (by simp [hq]))

/-- Grouping a list whose keys are already pairwise distinct is the
identity (no merge ever fires). -/
theorem groupByFlow_id (l : List CowSplit) (acc : List (CowFlow × Gate))
    (h : ((acc ++ l).map Prod.fst).Nodup) : groupByFlow l acc = acc ++ l := by
  induction l generalizing acc with
  | nil => simp [groupByFlow]
  | cons sp rest ih =>
      have hnm : sp.1 ∉ acc.map Prod.fst := by
        intro hmem
        rw [List.map_append, List.nodup_append] at h
        exact h.2.2 hmem (by simp)
      rw [groupByFlow, insertFlowGate_not_mem acc sp.1 sp.2 hnm]
      have hre : acc ++ sp :: rest = (acc ++ [(sp.1, sp.2)]) ++ rest := by simp
      rw [hre] at h
      rw [ih (acc ++ [(sp.1, sp.2)]) h]
      simp

/-- A gate that allows a slot is not block-all. -/
theorem allows_imp_not_block_all (g : Gate) (s : Slot) (h : g.allows_slot s = true) :
    g.is_block_all = false := by
  cases hb : g.is_block_all
  · rfl
  · rw [is_block_all_allows g hb s] at h
    exact absurd h (by simp)

/-- Totality core: after `CowSplitSet::normalize_splits`, some split's gate
allows any given slot (the escape hatch covers what the input misses). -/
theorem normalize_splits_any_allows (S : List CowSplit) (s : Slot) :
    (CowSplitSet.normalize_splits S).any (fun sp => sp.2.allows_slot s) = true := by
  have hfe :
      (fun sp : CowSplit => (!sp.2.is_block_all && sp.2.allows_slot s)) =
        (fun sp : CowSplit => sp.2.allows_slot s) := by
    funext sp
    cases hb : sp.2.is_block_all
    · simp
    · simp [is_block_all_allows _ hb s]
  simp only [CowSplitSet.normalize_splits]
  rw [groupByFlow_allows, List.any_filter, hfe]
  simp only [List.any_nil, Bool.false_or]
  have hfold := foldl_union_allows S Gate.block_all s
  rw [block_all_allows, Bool.false_or] at hfold
  by_cases hUA : (S.foldl (fun red sp => red.union sp.2) Gate.block_all).is_allow_all = true
  · rw [if_pos hUA]
    have hblk := (is_allow_all_iff _).mp hUA
    rw [hblk, block_empty_allows] at hfold
    exact hfold.symm
  · rw [if_neg hUA, List.any_append]
    cases hany : S.any (fun sp => sp.2.allows_slot s)
    · rw [hany] at hfold
      simp only [List.any_cons, List.any_nil, Bool.or_false, Bool.false_or]
      rw [allows_slot_invert, hfold]
      rfl
    · simp [hany]

/-- After normalization no two splits share a structurally identical
sub-flow. -/
theorem normalize_splits_flows_nodup (S : List CowSplit) :
    ((CowSplitSet.normalize_splits S).map Prod.fst).Nodup := by
  simp only [CowSplitSet.normalize_splits]
  exact groupByFlow_keys_nodup _ [] (by simp)

/-- After normalization no split carries a block-all gate. -/
theorem normalize_splits_not_block_all (S : List CowSplit) :
    ∀ sp ∈ CowSplitSet.normalize_splits S, sp.2.is_block_all = false := by
  simp only [CowSplitSet.normalize_splits]
  apply groupByFlow_not_block_all _ [] (by simp)
  intro sp hsp
  rcases List.mem_filter.mp hsp with ⟨_, hkeep⟩
  simpa using hkeep

/-- A split list that already covers every slot, carries no block-all gate,
and has pairwise distinct sub-flows is a fixed point of
`CowSplitSet::normalize_splits`. -/
theorem normalize_splits_fixed (N : List CowSplit)
    (hAll : ∀ s : Slot, N.any (fun sp => sp.2.allows_slot s) = true)
    (hNB : ∀ sp ∈ N, sp.2.is_block_all = false)
    (hKeys : (N.map Prod.fst).Nodup) :
    CowSplitSet.normalize_splits N = N := by
  have hUsem : ∀ s, (N.foldl (fun red sp => red.union sp.2) Gate.block_all).allows_slot s = true := by
    intro s
    rw [foldl_union_allows, block_all_allows, Bool.false_or]
    exact hAll s
  have hU := allows_all_eq_block_empty _ hUsem
  have hUA : (N.foldl (fun red sp => red.union sp.2) Gate.block_all).is_allow_all = true := by
    rw [hU]
    simp [Gate.is_allow_all, Gate.is_block, GateType.is_block, Gate.block, Gate.new]
  simp only [CowSplitSet.normalize_splits, hUA, if_true]
  rw [List.filter_eq_self.mpr (fun sp hsp => by simp [hNB sp hsp])]
  exact groupByFlow_id N [] (by simpa using hKeys)

/-- Idempotence of `CowSplitSet::normalize_splits` (helper form). -/
theorem normalize_splits_idem_helper (S : List CowSplit) :
    CowSplitSet.normalize_splits (CowSplitSet.normalize_splits S) =
      CowSplitSet.normalize_splits S :=
  normalize_splits_fixed _ (normalize_splits_any_allows S)
    (normalize_splits_not_block_all S) (normalize_splits_flows_nodup S)

/-- The two grouping-entry updates (`split.rs` and `cow_flow.rs`) agree:
`block_all` is a union identity and union is commutative. -/
theorem insertFlowGateOld_eq (acc : List (CowFlow × Gate)) (f : CowFlow) (g : Gate) :
    insertFlowGateOld acc f g = insertFlowGate acc f g := by
  induction acc with
  | nil => simp [insertFlowGateOld, insertFlowGate, gate_block_all_union]
  | cons p rest ih =>
      rcases p with ⟨f0, g0⟩
      by_cases hf : f = f0 <;>
        simp [insertFlowGateOld, insertFlowGate, hf, ih, gate_union_comm g0 g]

/-- The two grouping loops agree. -/
theorem groupByFlowOld_eq (l : List CowSplit) (acc : List (CowFlow × Gate)) :
    groupByFlowOld l acc = groupByFlow l acc := by
  induction l generalizing acc with
  | nil => rfl
  | cons sp rest ih => rw [groupByFlowOld, groupByFlow, insertFlowGateOld_eq, ih]

/-- `SplitSet::normalize_splits` (`split.rs`) computes the same split list as
`CowSplitSet::normalize_splits` (`cow_flow.rs`). -/
theorem SplitSet_normalize_eq (S : List CowSplit) :
    SplitSet.normalize_splits S = CowSplitSet.normalize_splits S := by
  simp only [SplitSet.normalize_splits, CowSplitSet.normalize_splits, groupByFlowOld_eq]

/-- C1: for every pair of gates `a`, `b` and every slot `s` (the model slot
type contains every `u8` slot), the combined gates have exact pointwise
boolean semantics: union is `||`, intersection is `&&`, difference is
`&& !`, symmetric difference is `!=`. -/
theorem gate_combinators_pointwise (a b : Gate) (s : Slot) :
    (a.union b).allows_slot s = (a.allows_slot s || b.allows_slot s) ∧
    (a.intersection b).allows_slot s = (a.allows_slot s && b.allows_slot s) ∧
    (a.difference b).allows_slot s = (a.allows_slot s && !b.allows_slot s) ∧
    (a.sym_difference b).allows_slot s = (a.allows_slot s != b.allows_slot s) :=
  ⟨allows_slot_union a b s, allows_slot_intersection a b s,
   allows_slot_difference a b s, allows_slot_sym_difference a b s⟩

/-- C9: `Gate::invert` is an involution, by exact structural equality
(the kind swaps twice, the slot set never changes). -/
theorem gate_invert_involution (g : Gate) : g.invert.invert = g := by
  rcases g with ⟨t, sl⟩
  cases t <;> rfl

/-- C2: for every input split list, the normalized result is total — every
slot is allowed by at least one resulting split's gate — and no two
resulting splits have structurally equal sub-flows. -/
theorem normalize_splits_total (S : List CowSplit) (s : Slot) :
    (∃ sp ∈ CowSplitSet.normalize_splits S, sp.2.allows_slot s = true) ∧
    ((CowSplitSet.normalize_splits S).map Prod.fst).Nodup := by
  constructor
  · have h := normalize_splits_any_allows S s
    simpa using h
  · exact normalize_splits_flows_nodup S

/-- C6: `CowSplitSet::normalize_splits` is idempotent — normalizing an
already-normalized split collection returns it unchanged. -/
theorem normalize_splits_idempotent (S : List CowSplit) :
    CowSplitSet.normalize_splits (CowSplitSet.normalize_splits S) =
      CowSplitSet.normalize_splits S :=
  normalize_splits_idem_helper S

/-- C7: normalizing the empty split collection yields exactly one split,
whose sub-flow is the empty flow and whose gate is the canonical allow-all
gate, a `Block` gate with the empty slot set. -/
theorem normalize_splits_empty :
    CowSplitSet.normalize_splits [] = [(([] : CowFlow), Gate.block ∅)] := by
  rfl

/-- C8 (amended): `SplitSet::new` in `split.rs` stores exactly the
normalization of its input, which is therefore already normalized (a second
normalization is the identity on it). -/
theorem splitset_new_normalizes (S : List CowSplit) :
    SplitSet.new S = SplitSet.normalize_splits S ∧
    SplitSet.normalize_splits (SplitSet.new S) = SplitSet.new S := by
  refine ⟨rfl, ?_⟩
  show SplitSet.normalize_splits (SplitSet.normalize_splits S) = SplitSet.normalize_splits S
  rw [SplitSet_normalize_eq, SplitSet_normalize_eq]
  exact normalize_splits_idem_helper S

/-- C8 counterexample: `CowSplitSet::new` in `cow_flow.rs` does not
normalize — on the empty input it stores the empty collection, while the
normalization procedure returns the singleton escape-hatch split. -/
theorem cow_splitset_new_not_normalizing :
    CowSplitSet.new [] = ([] : List CowSplit) ∧
    CowSplitSet.normalize_splits [] = [(([] : CowFlow), Gate.block ∅)] ∧
    ([] : List CowSplit) ≠ [(([] : CowFlow), Gate.block ∅)] :=
  ⟨rfl, rfl, by simp⟩

/-- `CowSplitSet::find_walks` hands each split a clone of the slot stack and
discards that clone, so on success it returns the stack it was given. -/
theorem splitset_find_walks_stack (ss : List CowSplit) (tgt : Slot) (stack : List Slot)
    (w : List (List Token)) (stack2 : List Slot)
    (h : cowSplitSetFindWalks ss tgt stack = .ok (w, stack2)) : stack2 = stack := by
  induction ss generalizing w stack2 with
  | nil =>
      simp only [cowSplitSetFindWalks] at h
      cases h
      rfl
  | cons sp rest ih =>
      simp only [cowSplitSetFindWalks] at h
      cases h1 : cowSplitFindWalks sp tgt stack with
      | error e =>
          simp only [h1] at h
          exact Except.noConfusion h
      | ok p =>
          rcases p with ⟨w1, d⟩
          simp only [h1] at h
          cases h2 : cowSplitSetFindWalks rest tgt stack with
          | error e =>
              simp only [h2] at h
              exact Except.noConfusion h
          | ok q =>
              rcases q with ⟨wr, st2⟩
              simp only [h2, Except.ok.injEq, Prod.mk.injEq] at h
              rw [← h.2]
              exact ih wr st2 h2

/-- Once the level target slot is fixed (`Option` is `some`), the level body
computes exactly `levelWalks` and leaves the stack unchanged. -/
theorem aux_some_eq (items : List CowFlowItem) (tgt : Slot) (stack : List Slot)
    (results : List (List Token)) :
    cowFlowFindWalksAux items results (some tgt) stack =
      Except.map (fun w => (w, stack)) (levelWalks items tgt stack results) := by
  induction items generalizing results with
  | nil => simp [cowFlowFindWalksAux, levelWalks, Except.map]
  | cons it rest ih =>
      cases it with
      | token t =>
          simp only [cowFlowFindWalksAux, levelWalks]
          exact ih _
      | split ss =>
          simp only [cowFlowFindWalksAux, levelWalks]
          cases h1 : cowSplitSetFindWalks ss tgt stack with
          | error e => simp [h1, Except.map]
          | ok p =>
              rcases p with ⟨w, stack2⟩
              have hst : stack2 = stack := splitset_find_walks_stack ss tgt stack w stack2 h1
              subst hst
              simp only [h1]
              exact ih _

/-- A flow without split items never touches the stack. -/
theorem aux_none_no_split (items : List CowFlowItem) (results : List (List Token))
    (stack : List Slot) (h : hasSplitItem items = false) :
    ∃ w, cowFlowFindWalksAux items results none stack = .ok (w, stack) := by
  induction items generalizing results with
  | nil => exact ⟨results, by simp [cowFlowFindWalksAux]⟩
  | cons it rest ih =>
      cases it with
      | token t =>
          have h2 : hasSplitItem rest = false := by
            simpa [hasSplitItem, isSplitItem] using h
          simp only [cowFlowFindWalksAux]
          exact ih _ h2
      | split ss => simp [hasSplitItem, isSplitItem] at h

/-- A flow with a split item fails with `Empty` on the empty stack. -/
theorem aux_none_empty_stack (items : List CowFlowItem) (results : List (List Token))
    (h : hasSplitItem items = true) :
    cowFlowFindWalksAux items results none [] = .error .empty := by
  induction items generalizing results with
  | nil => simp [hasSplitItem] at h
  | cons it rest ih =>
      cases it with
      | token t =>
          have h2 : hasSplitItem rest = true := by
            simpa [hasSplitItem, isSplitItem] using h
          simp only [cowFlowFindWalksAux]
          exact ih _ h2
      | split ss => simp only [cowFlowFindWalksAux]

/-- A flow with a split item pops exactly the head of the stack and then
computes `levelWalks` with that head as the shared target slot. -/
theorem aux_none_cons_stack (items : List CowFlowItem) (results : List (List Token))
    (s : Slot) (stack1 : List Slot) (h : hasSplitItem items = true) :
    cowFlowFindWalksAux items results none (s :: stack1) =
      Except.map (fun w => (w, stack1)) (levelWalks items s stack1 results) := by
  induction items generalizing results with
  | nil => simp [hasSplitItem] at h
  | cons it rest ih =>
      cases it with
      | token t =>
          have h2 : hasSplitItem rest = true := by
            simpa [hasSplitItem, isSplitItem] using h
          simp only [cowFlowFindWalksAux, levelWalks]
          exact ih _ h2
      | split ss =>
          simp only [cowFlowFindWalksAux, levelWalks]
          cases h1 : cowSplitSetFindWalks ss s stack1 with
          | error e => simp [h1, Except.map]
          | ok p =>
              rcases p with ⟨w, stack2⟩
              have hst : stack2 = stack1 := splitset_find_walks_stack ss s stack1 w stack2 h1
              rw [hst]
              exact aux_some_eq rest s stack1 (crossApp results w)

/-- Stack shape on success of `CowFlow::find_walks`: exactly one slot is
consumed when the flow has a split item at its level, none otherwise. -/
theorem find_walks_ok_stack (f : CowFlow) (stack : List Slot) (w : List (List Token))
    (rest2 : List Slot) (h : CowFlow.find_walks f stack = .ok (w, rest2)) :
    rest2 = (if hasSplitItem f then stack.tail else stack) ∧
      (hasSplitItem f = true → stack ≠ []) := by
  cases hs : hasSplitItem f
  · obtain ⟨w0, hw⟩ := aux_none_no_split f [[]] stack hs
    rw [CowFlow.find_walks] at h
    rw [hw] at h
    cases h
    simp
  · cases stack with
    | nil =>
        rw [CowFlow.find_walks, aux_none_empty_stack f [[]] hs] at h
        cases h
    | cons s st1 =>
        rw [CowFlow.find_walks, aux_none_cons_stack f [[]] s st1 hs] at h
        cases hl : levelWalks f s st1 [[]] with
        | error e =>
            rw [hl] at h
            simp [Except.map] at h
        | ok wv =>
            rw [hl] at h
            simp only [Except.map] at h
            cases h
            simp

/-- The wrapper checks the drained stack on success of `find_walks`. -/
theorem walks_of_find_ok (f : CowFlow) (stack : List Slot) (w0 : List (List Token))
    (rest2 : List Slot) (h : CowFlow.find_walks f stack = .ok (w0, rest2)) :
    CowFlow.walks f stack =
      if rest2 = [] then .ok w0 else .error (.leftover rest2) := by
  rw [CowFlow.walks, h]

/-- The wrapper propagates errors of `find_walks` unchanged. -/
theorem walks_of_find_error (f : CowFlow) (stack : List Slot) (e : SlotStackError)
    (h : CowFlow.find_walks f stack = .error e) : CowFlow.walks f stack = .error e := by
  rw [CowFlow.walks, h]

/-- C3 (amended): the caller's stack loses exactly one entry per call when
the flow has a top-level split and none otherwise, because every alternative
works on a discarded clone.  Hence `walks` can only succeed when the stack
has exactly that many entries; the empty stack fails with `Empty` when a
split is present; a stack of two or more entries fails with `Leftover`
carrying the entries after the single popped one whenever the underlying
`find_walks` succeeds; and any non-empty stack fails with `Leftover`
untouched when the flow has no split. -/
theorem walk_stack_discipline (f : CowFlow) (stack : List Slot) :
    (∀ w, CowFlow.walks f stack = .ok w →
      stack.length = (if hasSplitItem f then 1 else 0)) ∧
    (hasSplitItem f = true → CowFlow.walks f [] = .error .empty) ∧
    (hasSplitItem f = true → 2 ≤ stack.length →
      ∀ w rest2, CowFlow.find_walks f stack = .ok (w, rest2) →
        CowFlow.walks f stack = .error (.leftover stack.tail)) ∧
    (hasSplitItem f = false → stack ≠ [] →
      CowFlow.walks f stack = .error (.leftover stack)) := by
  refine ⟨?_, ?_, ?_, ?_⟩
  · intro w hw
    cases hfw : CowFlow.find_walks f stack with
    | error e =>
        rw [walks_of_find_error f stack e hfw] at hw
        exact Except.noConfusion hw
    | ok p =>
        rcases p with ⟨w0, rest2⟩
        rw [walks_of_find_ok f stack w0 rest2 hfw] at hw
        by_cases hr : rest2 = []
        · subst hr
          obtain ⟨hre, hne⟩ := find_walks_ok_stack f stack w0 [] hfw
          cases hs : hasSplitItem f
          · rw [hs] at hre
            simp only [Bool.false_eq_true, if_false] at hre
            simp [hs, ← hre]
          · rw [hs] at hre hne
            simp only [if_true] at hre
            cases stack with
            | nil => exact absurd rfl (hne rfl)
            | cons a st =>
                simp only [List.tail_cons] at hre
                simp [hs, ← hre]
        · rw [if_neg hr] at hw
          exact Except.noConfusion hw
  · intro hs
    exact walks_of_find_error f [] SlotStackError.empty (aux_none_empty_stack f [[]] hs)
  · intro hs hlen w rest2 hfw
    obtain ⟨hre, hne⟩ := find_walks_ok_stack f stack w rest2 hfw
    rw [hs] at hre
    simp only [if_true] at hre
    have htne : stack.tail ≠ [] := by
      cases stack with
      | nil => simp at hlen
      | cons a st =>
          cases st with
          | nil => simp at hlen
          | cons b st2 => simp
    rw [walks_of_find_ok f stack w rest2 hfw, hre, if_neg htne]
  · intro hs hne
    obtain ⟨w0, hw⟩ := aux_none_no_split f [[]] stack hs
    rw [walks_of_find_ok f stack w0 stack hw, if_neg hne]

/-- C3 counterexample: `flowNested2` has two independent nesting levels of
splits, yet resolving it with exactly two slot choices does not succeed: the
nested level consumed only a discarded clone of the stack, so the second
choice is left over and `walks` fails with `Leftover [0]`. -/
theorem nested_flow_two_slots_leftover :
    CowFlow.walks flowNested2 [0, 0] = .error (.leftover [0]) := by
  have hfw : CowFlow.find_walks flowNested2 [0, 0] = .ok ([[]], [0]) := by
    simp [flowNested2, CowFlow.find_walks, cowFlowFindWalksAux,
      cowSplitSetFindWalks, cowSplitFindWalks, crossApp, Gate.allow_all, Gate.block,
      Gate.new, Gate.allows_slot, Gate.is_allow, GateType.is_allow]
  rw [walks_of_find_ok flowNested2 [0, 0] [[]] [0] hfw]
  simp

/-- C3 witness: the amended theorem applied at `flowNested2` with the
two-entry stack `[0, 0]`, discharging every hypothesis concretely. -/
theorem walk_stack_discipline_witness :
    hasSplitItem flowNested2 = true ∧ 2 ≤ ([0, 0] : List Slot).length ∧
      CowFlow.walks flowNested2 [0, 0] = .error (.leftover [0]) :=
  ⟨by simp [flowNested2, hasSplitItem, isSplitItem], by simp,
    (walk_stack_discipline flowNested2 [0, 0]).2.2.1
      (by simp [flowNested2, hasSplitItem, isSplitItem]) (by simp) [[]] [0]
      (by simp [flowNested2, CowFlow.find_walks, cowFlowFindWalksAux,
        cowSplitSetFindWalks, cowSplitFindWalks, crossApp, Gate.allow_all, Gate.block,
        Gate.new, Gate.allows_slot, Gate.is_allow, GateType.is_allow])⟩

/-- C4: for the flow `[Token(A), Split{(Flow[Token(B)], allow(0))}, Token(C)]`,
slot stack `[0]` resolves to exactly one walk `[A, B, C]`, and slot stack
`[1]` resolves to exactly one walk `[A, C]` — the blocked split contributes
one empty token sequence rather than zero sequences or an error. -/
theorem blocked_split_contributes_empty :
    CowFlow.walks flowC4 [0] = .ok [[tokA, tokB, tokC]] ∧
    CowFlow.walks flowC4 [1] = .ok [[tokA, tokC]] := by
  have h0 : CowFlow.find_walks flowC4 [0] = .ok ([[tokA, tokB, tokC]], []) := by
    simp [flowC4, CowFlow.find_walks, cowFlowFindWalksAux,
      cowSplitSetFindWalks, cowSplitFindWalks, crossApp, Gate.allow, Gate.new,
      Gate.allows_slot, Gate.is_allow, GateType.is_allow]
  have h1 : CowFlow.find_walks flowC4 [1] = .ok ([[tokA, tokC]], []) := by
    simp [flowC4, CowFlow.find_walks, cowFlowFindWalksAux,
      cowSplitSetFindWalks, cowSplitFindWalks, crossApp, Gate.allow, Gate.new,
      Gate.allows_slot, Gate.is_allow, GateType.is_allow]
  constructor
  · rw [walks_of_find_ok flowC4 [0] [[tokA, tokB, tokC]] [] h0]
    simp
  · rw [walks_of_find_ok flowC4 [1] [[tokA, tokC]] [] h1]
    simp

/-- C5: a flow with two or more split items at its top level pops exactly one
slot (the stack handed to the rest of the resolution is the popped stack
`rest`) and evaluates every split item of the level against that same popped
slot, as computed by the one-target-per-level function `levelWalks`. -/
theorem same_level_splits_share_one_pop (items : List CowFlowItem) (s : Slot)
    (rest : List Slot) (h : 2 ≤ countSplitItems items) :
    CowFlow.find_walks items (s :: rest) =
      Except.map (fun w => (w, rest)) (levelWalks items s rest [[]]) := by
  have hs : hasSplitItem items = true := by
    rw [hasSplitItem, List.any_eq_true]
    have hpos : 0 < items.countP isSplitItem := lt_of_lt_of_le (by norm_num) h
    simpa using List.countP_pos_iff.mp hpos
  rw [CowFlow.find_walks]
  exact aux_none_cons_stack items [[]] s rest hs

/-- C5 witness: the theorem applied to the two-split scenario flow with the
slot stack `[1]`; both splits are evaluated against the shared popped slot 1. -/
theorem same_level_splits_share_one_pop_witness :
    2 ≤ countSplitItems flowC5 ∧
      CowFlow.find_walks flowC5 [1] =
        Except.map (fun w => (w, ([] : List Slot))) (levelWalks flowC5 1 [] [[]]) :=
  ⟨by simp [flowC5, countSplitItems, isSplitItem],
    same_level_splits_share_one_pop flowC5 1 []
      (by simp [flowC5, countSplitItems, isSplitItem])⟩

/-- C10: `CowSplitSet::find_walks` never removes entries from the caller's
slot stack — each contained split is resolved against a fresh clone, so any
consumption inside an alternative (including pops for nested splits) is
discarded and the returned stack equals the given one. -/
theorem splitset_find_walks_preserves_stack (ss : List CowSplit) (tgt : Slot)
    (stack : List Slot) (w : List (List Token)) (stack2 : List Slot)
    (h : cowSplitSetFindWalks ss tgt stack = .ok (w, stack2)) : stack2 = stack :=
  splitset_find_walks_stack ss tgt stack w stack2 h

/-- C10 witness: the single alternative of `ssNested` contains a nested split
that pops slot 5 from its cloned stack, yet the set-level call returns the
caller's stack `[5]` unchanged. -/
theorem splitset_find_walks_preserves_stack_witness :
    cowSplitSetFindWalks ssNested 0 [5] = .ok ([[]], [5]) ∧ ([5] : List Slot) = [5] :=
  ⟨by simp [ssNested, cowSplitSetFindWalks, cowSplitFindWalks, cowFlowFindWalksAux,
      crossApp, Gate.allow, Gate.allow_all, Gate.block, Gate.new, Gate.allows_slot,
      Gate.is_allow, GateType.is_allow],
    splitset_find_walks_preserves_stack ssNested 0 [5] [[]] [5]
      (by simp [ssNested, cowSplitSetFindWalks, cowSplitFindWalks, cowFlowFindWalksAux,
        crossApp, Gate.allow, Gate.allow_all, Gate.block, Gate.new, Gate.allows_slot,
        Gate.is_allow, GateType.is_allow])⟩
